import Mathlib

/-!
# Verification of the chomp parser-combinator core

A shallow embedding of the combinator core of the `chomp` Go library.
Input text is modelled at the rune (code point) level as `List Char`:
the library contract requires callers to supply valid UTF-8, and every
byte offset the Go code slices at falls on a rune boundary for valid
UTF-8 input (UTF-8 is self-synchronising, and the literals sliced with
are themselves valid UTF-8).  Where the Go code counts bytes (the
`While` family accumulates `len(string(c))`), the byte length of a rune
is modelled explicitly by `utf8Len`.

Every combinator is translated from the Go source: a value of type
`Comb A` maps the input text to `(remaining, matched, error)` exactly as
the Go function of the same name does.
-/

namespace Chomp

/-- Input text: a sequence of runes (Unicode code points). -/
abbrev Str := List Char

/-- Byte length of the UTF-8 encoding of a rune, as computed by Go
`len(string(r))` for a valid rune. -/
def utf8Len (c : Char) : Nat :=
  if c.toNat < 0x80 then 1
  else if c.toNat < 0x800 then 2
  else if c.toNat < 0x10000 then 3
  else 4

/-- Byte length of the UTF-8 encoding of a text, Go `len(s)`. -/
def byteLen (s : Str) : Nat := (s.map utf8Len).sum

/-- Go `RangedParserExec`: execution details of a ranged combinator
(fields `Min`, `Max`, `Count`). -/
structure RExec where
  min : Nat
  max : Nat
  count : Nat
deriving DecidableEq, Repr

/-- The error taxonomy of the library, as one inductive with the Go
`Unwrap` chain made structural:
`cpe` is `CombinatorParseError` (fields `Input`, `Text`, `Type`),
`pe` is `ParserError` (fields `Err`, `Type`),
`rpe` is `RangedParserError` (fields `Err`, `Exec`, `Type`),
`cutE` is `CutError` (field `Err`),
`generic` models errors built with `fmt.Errorf`. -/
inductive GoError where
  | cpe (input : Str) (text : Str) (ty : String)
  | pe (err : GoError) (ty : String)
  | rpe (err : GoError) (exec : RExec) (ty : String)
  | cutE (err : GoError)
  | generic (msg : String)
deriving DecidableEq, Repr

/-- A parse result `(remaining, matched, error)`. -/
abbrev Res (α : Type) := Str × α × Option GoError

/-- Go `Combinator[T]`: a parser from input text to a result. -/
abbrev Comb (α : Type) := Str → Res α

/-- The Go `Result` constraint (`string | []string`): how an output
value flattens into a `[]string` (the `combine` helper) and the zero
value `var out T`. -/
class GoRes (α : Type) where
  flat : α → List Str
  dflt : α

instance : GoRes Str := ⟨fun x => [x], []⟩

instance : GoRes (List Str) := ⟨fun x => x, []⟩

/-- Go `errors.As(err, &CutError{})`: whether the error is, or wraps via
the `Unwrap` chain, a `CutError`. -/
def isCut : GoError → Bool
  | .cutE _ => true
  | .pe e _ => isCut e
  | .rpe e _ _ => isCut e
  | .cpe .. => false
  | .generic _ => false

/-! ## Primitive scanners (basic.go, predicate.go) -/

/-- Go `Tag(str)`: exact literal match at the start of the input. -/
def Tag (str : Str) : Comb Str := fun s =>
  if str.isPrefixOf s then (s.drop str.length, str, none)
  else (s, [], some (.cpe str s "tag"))

/-- Go `Char(c)`: match one specific rune at the start of the input. -/
def CharP (c : Char) : Comb Str := fun s =>
  match s with
  | [] => (s, [], some (.cpe [c] s "char"))
  | r :: rest =>
    if r = c then (rest, [r], none)
    else (s, [], some (.cpe [c] s "char"))

/-- Go `AnyChar()`: match any single rune. -/
def AnyChar : Comb Str := fun s =>
  match s with
  | [] => (s, [], some (.cpe [] s "any_char"))
  | r :: rest => (rest, [r], none)

/-- Go `Satisfy(pred)`: match one rune satisfying the predicate. -/
def Satisfy (pred : Char → Bool) : Comb Str := fun s =>
  match s with
  | [] => (s, [], some (.cpe [] s "satisfy"))
  | r :: rest =>
    if pred r then (rest, [r], none)
    else (s, [], some (.cpe [] s "satisfy"))

/-- Go `OneOf(str)`: match one rune contained in `str`. -/
def OneOf (str : Str) : Comb Str := fun s =>
  match s with
  | [] => (s, [], some (.cpe str s "one_of"))
  | r :: rest =>
    if r ∈ str then (rest, [r], none)
    else (s, [], some (.cpe str s "one_of"))

/-- Go `NoneOf(str)`: match one rune not contained in `str`. -/
def NoneOf (str : Str) : Comb Str := fun s =>
  match s with
  | [] => (s, [], some (.cpe str s "none_of"))
  | r :: rest =>
    if r ∈ str then (s, [], some (.cpe str s "none_of"))
    else (rest, [r], none)

/-- Go `Any(str)`: longest prefix of runes all contained in `str`;
fails if that prefix is empty. -/
def AnyOf (str : Str) : Comb Str := fun s =>
  match s.takeWhile (fun c => decide (c ∈ str)) with
  | [] => (s, [], some (.cpe str s "any"))
  | m => (s.dropWhile (fun c => decide (c ∈ str)), m, none)

/-- Go `Not(str)`: longest prefix of runes all absent from `str`;
fails if that prefix is empty. -/
def NotOf (str : Str) : Comb Str := fun s =>
  match s.takeWhile (fun c => decide (c ∉ str)) with
  | [] => (s, [], some (.cpe str s "not"))
  | m => (s.dropWhile (fun c => decide (c ∉ str)), m, none)

/-- Index of the first occurrence of `pat` in `s`, Go `strings.Index`
(for valid UTF-8 the first byte-level occurrence starts on a rune
boundary, so the rune index is faithful). Go returns -1 when absent;
here `none`. -/
def indexOfSub (s pat : Str) : Option Nat :=
  if pat.isPrefixOf s then some 0
  else
    match s with
    | [] => none
    | _ :: rest => (indexOfSub rest pat).map (· + 1)

/-- Go `Until(str)`: everything before the first occurrence of `str`;
fails if `str` never occurs. -/
def Until (str : Str) : Comb Str := fun s =>
  match indexOfSub s str with
  | some idx => (s.drop idx, s.take idx, none)
  | none => (s, [], some (.cpe str s "until"))

/-- Go `TakeUntil1(str)`: as `Until` but the match position must be
positive (Go `idx > 0`). -/
def TakeUntil1 (str : Str) : Comb Str := fun s =>
  match indexOfSub s str with
  | some idx =>
    if 0 < idx then (s.drop idx, s.take idx, none)
    else (s, [], some (.cpe str s "take_until_1"))
  | none => (s, [], some (.cpe str s "take_until_1"))

/-- Go `Take(n)`: exactly `n` runes (the Go code counts runes here). -/
def TakeN (n : Nat) : Comb Str := fun s =>
  if s.length < n then (s, [], some (.cpe [] s "take"))
  else (s.drop n, s.take n, none)

/-- The `Predicate` interface: a character test plus its name
(used in error messages). -/
structure Pred where
  test : Char → Bool
  name : String

/-- Go `WhileN(p, n)`: longest run of runes satisfying `p`; the Go code
accumulates `pos += len(string(c))`, i.e. the BYTE length of the run,
and compares that against `n`. -/
def WhileN (p : Pred) (n : Nat) : Comb Str := fun s =>
  let m := s.takeWhile p.test
  let pos := byteLen m
  if pos < n then
    (s, [], some (.rpe (.cpe [] s p.name) ⟨n, 0, pos⟩ "while_n"))
  else (s.dropWhile p.test, m, none)

/-- Go `While(p) = WhileN(p, 1)`. -/
def WhileP (p : Pred) : Comb Str := WhileN p 1

/-- Go `WhileNM(p, n, m)`: as `WhileN` with the byte length of the run
also bounded above by `m`. -/
def WhileNM (p : Pred) (n m : Nat) : Comb Str := fun s =>
  let mt := s.takeWhile p.test
  let pos := byteLen mt
  if pos < n ∨ pos > m then
    (s, [], some (.rpe (.cpe [] s p.name) ⟨n, m, pos⟩ "while_n_m"))
  else (s.dropWhile p.test, mt, none)

/-- Go `WhileNotN(p, n)`: inverse of `WhileN`. -/
def WhileNotN (p : Pred) (n : Nat) : Comb Str := fun s =>
  let m := s.takeWhile (fun c => !p.test c)
  let pos := byteLen m
  if pos < n then
    (s, [], some (.rpe (.cpe [] s p.name) ⟨n, 0, pos⟩ "while_not_n"))
  else (s.dropWhile (fun c => !p.test c), m, none)

/-- Go `WhileNotNM(p, n, m)`: inverse of `WhileNM`. -/
def WhileNotNM (p : Pred) (n m : Nat) : Comb Str := fun s =>
  let mt := s.takeWhile (fun c => !p.test c)
  let pos := byteLen mt
  if pos < n ∨ pos > m then
    (s, [], some (.rpe (.cpe [] s p.name) ⟨n, m, pos⟩ "while_not_n_m"))
  else (s.dropWhile (fun c => !p.test c), mt, none)

/-- Go `Crlf()` (parser.go): `idx := strings.Index(s, "\n")`; succeed iff
`idx == 0` or (`idx == 1` and `s[0] == '\r'`), consuming `s[:idx+1]`.
The byte index of the first `'\n'` equals its rune index in the two
accepted cases since `'\n'` and `'\r'` are one-byte runes. -/
def Crlf : Comb Str := fun s =>
  match indexOfSub s ['\n'] with
  | some 0 => (s.drop 1, s.take 1, none)
  | some 1 =>
    if s.head? = some '\r' then (s.drop 2, s.take 2, none)
    else (s, [], some (.cpe [] s "crlf"))
  | _ => (s, [], some (.cpe [] s "crlf"))

/-- One-step unfolding equation for `indexOfSub`. -/
theorem indexOfSub_eq (s pat : Str) :
    indexOfSub s pat =
      if pat.isPrefixOf s then some 0
      else
        match s with
        | [] => none
        | _ :: rest => (indexOfSub rest pat).map (· + 1) := by
  conv_lhs => unfold indexOfSub

/-- Unfolding step for `indexOfSub` when the pattern `['\n']` does not
start at the head. -/
theorem indexOfSub_nl_cons (a : Char) (rest : Str) (h : ¬('\n' = a)) :
    indexOfSub (a :: rest) ['\n'] = (indexOfSub rest ['\n']).map (· + 1) := by
  rw [indexOfSub_eq]
  simp [List.isPrefixOf, h]

/-! ## Modifier and sequencing combinators (modifier.go, sequence.go) -/

/-- Go `Opt(c)`: run `c`, swallow any error; remaining and matched values
are whatever `c` returned. -/
def Opt (c : Comb α) : Comb α := fun s =>
  let r := c s
  (r.1, r.2.1, none)

/-- Go `Pair(c1, c2)`: run both in order; outputs flatten via `combine`;
a failing sub-parser's result text is propagated as remaining. -/
def Pair [GoRes α] [GoRes β] (c1 : Comb α) (c2 : Comb β) :
    Comb (List Str) := fun s =>
  match c1 s with
  | (rem, _, some e) => (rem, [], some (.pe e "pair"))
  | (rem, out1, none) =>
    match c2 rem with
    | (rem2, _, some e) => (rem2, [], some (.pe e "pair"))
    | (rem2, out2, none) => (rem2, GoRes.flat out1 ++ GoRes.flat out2, none)

/-- Go `Suffixed(c, suf)`: run `c`, then `suf` whose match is discarded;
errors pass through unchanged. -/
def Suffixed (c suf : Comb Str) : Comb Str := fun s =>
  match c s with
  | (rem, _, some e) => (rem, [], some e)
  | (rem, ext, none) =>
    match suf rem with
    | (rem2, _, some e) => (rem2, [], some e)
    | (rem2, _, none) => (rem2, ext, none)

/-- Loop body of `Repeat(c, n)`: `i` is the Go loop variable and
`left = n - i` the iterations still to run (so the recursion is
structural); a failed iteration reports `RangeExecution(i, n)` and
returns the failing call's remaining text. -/
def repeatAux [GoRes α] (c : Comb α) (n : Nat) :
    Nat → Nat → Str → List Str → Res (List Str)
  | 0, _, rem, ext => (rem, ext, none)
  | left + 1, i, rem, ext =>
    match c rem with
    | (r', _, some e) => (r', [], some (.rpe e ⟨n, 0, i⟩ "repeat"))
    | (r', o, none) => repeatAux c n left (i + 1) r' (ext ++ GoRes.flat o)

/-- Go `Repeat(c, n)`: run `c` exactly `n` times. -/
def RepeatN [GoRes α] (c : Comb α) (n : Nat) : Comb (List Str) :=
  fun s => repeatAux c n n 0 s []

/-- Loop body of `RepeatRange(c, n, m)`: `i` is the Go loop variable
and `left = m - i` the iterations still to run.  On a failed iteration
with `i + 1 > n` the loop breaks successfully (the Go code has already
reassigned `rem` to the failing call's remaining text); otherwise the
error reports `RangeExecution(i, n, m)`. -/
def repeatRangeAux [GoRes α] (c : Comb α) (n m : Nat) :
    Nat → Nat → Str → List Str → Res (List Str)
  | 0, _, rem, ext => (rem, ext, none)
  | left + 1, i, rem, ext =>
    match c rem with
    | (r', _, some e) =>
      if i + 1 > n then (r', ext, none)
      else (r', [], some (.rpe e ⟨n, m, i⟩ "repeat_range"))
    | (r', o, none) => repeatRangeAux c n m left (i + 1) r' (ext ++ GoRes.flat o)

/-- Go `RepeatRange(c, n, m)`: silently swaps `n > m`, then runs the loop. -/
def RepeatRange [GoRes α] (c : Comb α) (n m : Nat) : Comb (List Str) :=
  fun s =>
    let p := if n > m then (m, n) else (n, m)
    repeatRangeAux c p.1 p.2 p.2 0 s []

/-- One pass of the unbounded `ManyN` loop, with explicit fuel: the Go
loop runs until the first failed match, keeping the remaining text of
the last success (`tmpRem` is discarded on failure).  `none` means the
fuel ran out before the loop exited. -/
def manyNLoop [GoRes α] (c : Comb α) :
    Nat → Str → List Str → Nat → Option (Str × List Str × Nat × GoError)
  | 0, _, _, _ => none
  | fuel + 1, rem, ext, count =>
    match c rem with
    | (_, _, some e) => some (rem, ext, count, e)
    | (r', o, none) => manyNLoop c fuel r' (ext ++ GoRes.flat o) (count + 1)

/-- Go `ManyN(c, n)` under a fuel bound: `some` result exactly when the Go
loop exits within `fuel` iterations. -/
def ManyN [GoRes α] (c : Comb α) (n : Nat) (s : Str) (fuel : Nat) :
    Option (Res (List Str)) :=
  (manyNLoop c fuel s [] 0).map fun x =>
    match x with
    | (rem, ext, count, e) =>
      if count < n then (rem, [], some (.rpe e ⟨n, 0, count⟩ "many_n"))
      else (rem, ext, none)

/-- Go `ManyN(c, n)(s)` terminates: the Go loop exits after finitely many
iterations and the call returns a result. -/
def ManyNTerminates [GoRes α] (c : Comb α) (n : Nat) (s : Str) : Prop :=
  ∃ fuel r, ManyN c n s fuel = some r

/-- Alternation loop of `First`: `s` is the original input, restored on
a fatal error and at exhaustion. -/
def firstAux [GoRes α] (s : Str) : List (Comb α) → Res α
  | [] => (s, GoRes.dflt, some (.cpe [] s "first"))
  | c :: rest =>
    match c s with
    | (r, v, none) => (r, v, none)
    | (_, _, some e) =>
      if isCut e then (s, GoRes.dflt, some e) else firstAux s rest

/-- Go `First(c1..cn)`: ordered alternation with cut-aware early exit. -/
def First [GoRes α] (cs : List (Comb α)) : Comb α := fun s => firstAux s cs

/-- Go `Cut(c)`: on failure of `c`, restore the original input and wrap
the error as a fatal `CutError`. -/
def Cut [GoRes α] (c : Comb α) : Comb α := fun s =>
  match c s with
  | (_, _, some e) => (s, GoRes.dflt, some (.cutE e))
  | ok => ok

/-- Go `Recognize(c)`: on success return the raw consumed span
`s[:len(s)-len(rem)]` as the match; on failure restore `s`. -/
def Recognize (c : Comb α) : Comb Str := fun s =>
  match c s with
  | (_, _, some e) => (s, [], some e)
  | (rem, _, none) => (rem, s.take (s.length - rem.length), none)

/-- Specification-side observable for the repetition claims: the number
of consecutive successful applications of `c`, capped at `m` (exactly
the number of loop iterations the ranged Go loops complete). -/
def repCount (c : Comb α) : Nat → Str → Nat
  | 0, _ => 0
  | m + 1, s =>
    match c s with
    | (r, _, none) => repCount c m r + 1
    | (_, _, some _) => 0

/-! ## Claim C10: empty-literal edge case -/

/-- C10. For every input `s`, `Tag("")` and `Until("")` both succeed
with remaining `s` unchanged, an empty matched value and no error. -/
theorem c10_empty_literal_zero_width (s : Str) :
    Tag [] s = (s, [], none) ∧ Until [] s = (s, [], none) := by
  constructor
  · cases s <;> simp [Tag, List.isPrefixOf]
  · cases s <;> simp [Until, indexOfSub, List.isPrefixOf]

/-! ## Claim C1: no consumption on failure -/

/-- C1 counterexample. `Pair(Tag("a"), Tag("b"))("ax")` fails (the
second sub-parser fails after the first consumed `"a"`), yet the
returned remaining text is `"x"`, not the original `"ax"`: the
sequencing combinators leak the partial consumption on failure. -/
theorem c1_pair_consumes_on_failure :
    (Pair (Tag ['a']) (Tag ['b']) ['a', 'x']).1 = ['x'] ∧
    (Pair (Tag ['a']) (Tag ['b']) ['a', 'x']).2.2.isSome = true ∧
    (['x'] : Str) ≠ ['a', 'x'] := by
  refine ⟨by decide, by decide, by decide⟩

/-- C1 amended. Every leaf primitive — `Tag`, `Char`, `AnyChar`,
`Satisfy`, `OneOf`, `NoneOf`, `Any`, `Not`, `Until`, `TakeUntil1`,
`Take`, the `While` family and `Crlf` — returns the original input
unchanged as remaining on failure.  The sequencing combinators do not
restore the original input: `Pair` propagates the failing sub-parser's
remaining text, so a failure of the second sub-parser leaves the first
sub-parser's consumption visible. -/
theorem c1_failure_remaining :
    (∀ str s, (Tag str s).2.2 ≠ none → (Tag str s).1 = s) ∧
    (∀ ch s, (CharP ch s).2.2 ≠ none → (CharP ch s).1 = s) ∧
    (∀ s, (AnyChar s).2.2 ≠ none → (AnyChar s).1 = s) ∧
    (∀ p s, (Satisfy p s).2.2 ≠ none → (Satisfy p s).1 = s) ∧
    (∀ str s, (OneOf str s).2.2 ≠ none → (OneOf str s).1 = s) ∧
    (∀ str s, (NoneOf str s).2.2 ≠ none → (NoneOf str s).1 = s) ∧
    (∀ str s, (AnyOf str s).2.2 ≠ none → (AnyOf str s).1 = s) ∧
    (∀ str s, (NotOf str s).2.2 ≠ none → (NotOf str s).1 = s) ∧
    (∀ str s, (Until str s).2.2 ≠ none → (Until str s).1 = s) ∧
    (∀ str s, (TakeUntil1 str s).2.2 ≠ none → (TakeUntil1 str s).1 = s) ∧
    (∀ n s, (TakeN n s).2.2 ≠ none → (TakeN n s).1 = s) ∧
    (∀ p n s, (WhileN p n s).2.2 ≠ none → (WhileN p n s).1 = s) ∧
    (∀ p n m s, (WhileNM p n m s).2.2 ≠ none → (WhileNM p n m s).1 = s) ∧
    (∀ p n s, (WhileNotN p n s).2.2 ≠ none → (WhileNotN p n s).1 = s) ∧
    (∀ p n m s, (WhileNotNM p n m s).2.2 ≠ none →
      (WhileNotNM p n m s).1 = s) ∧
    (∀ s, (Crlf s).2.2 ≠ none → (Crlf s).1 = s) ∧
    (∀ (α β : Type) [GoRes α] [GoRes β] (c1 : Comb α) (c2 : Comb β)
      (s r1 : Str) (o1 : α) (e : GoError), c1 s = (r1, o1, some e) →
      Pair c1 c2 s = (r1, [], some (.pe e "pair"))) ∧
    (∀ (α β : Type) [GoRes α] [GoRes β] (c1 : Comb α) (c2 : Comb β)
      (s r1 r2 : Str) (o1 : α) (o2 : β) (e : GoError),
      c1 s = (r1, o1, none) → c2 r1 = (r2, o2, some e) →
      Pair c1 c2 s = (r2, [], some (.pe e "pair"))) := by
  refine ⟨?_, ?_, ?_, ?_, ?_, ?_, ?_, ?_, ?_, ?_, ?_, ?_, ?_, ?_, ?_, ?_,
    ?_, ?_⟩
  · intro str s h
    by_cases hp : str.isPrefixOf s
    · simp [Tag, hp] at h
    · simp [Tag, hp]
  · intro ch s h
    match s with
    | [] => simp [CharP]
    | r :: rest =>
      by_cases hr : r = ch
      · simp [CharP, hr] at h
      · simp [CharP, hr]
  · intro s h
    match s with
    | [] => simp [AnyChar]
    | r :: rest => simp [AnyChar] at h
  · intro p s h
    match s with
    | [] => simp [Satisfy]
    | r :: rest =>
      by_cases hr : p r
      · simp [Satisfy, hr] at h
      · simp [Satisfy, hr]
  · intro str s h
    match s with
    | [] => simp [OneOf]
    | r :: rest =>
      by_cases hr : r ∈ str
      · simp [OneOf, hr] at h
      · simp [OneOf, hr]
  · intro str s h
    match s with
    | [] => simp [NoneOf]
    | r :: rest =>
      by_cases hr : r ∈ str
      · simp [NoneOf, hr]
      · simp [NoneOf, hr] at h
  · intro str s h
    cases hm : s.takeWhile (fun c => decide (c ∈ str)) with
    | nil => simp [AnyOf, hm]
    | cons a l => simp [AnyOf, hm] at h
  · intro str s h
    cases hm : s.takeWhile (fun c => decide (c ∉ str)) with
    | nil => simp only [NotOf, hm]
    | cons a l => simp only [NotOf, hm] at h; simp at h
  · intro str s h
    cases hi : indexOfSub s str with
    | none => simp [Until, hi]
    | some idx => simp [Until, hi] at h
  · intro str s h
    cases hi : indexOfSub s str with
    | none => simp [TakeUntil1, hi]
    | some idx =>
      by_cases hz : 0 < idx
      · simp [TakeUntil1, hi, hz] at h
      · simp [TakeUntil1, hi, hz]
  · intro n s h
    by_cases hl : s.length < n
    · simp [TakeN, hl]
    · simp [TakeN, hl] at h
  · intro p n s h
    by_cases hl : byteLen (s.takeWhile p.test) < n
    · simp [WhileN, hl]
    · simp [WhileN, hl] at h
  · intro p n m s h
    by_cases hl : byteLen (s.takeWhile p.test) < n ∨
        byteLen (s.takeWhile p.test) > m
    · simp [WhileNM, hl]
    · simp [WhileNM, hl] at h
  · intro p n s h
    by_cases hl : byteLen (s.takeWhile (fun c => !p.test c)) < n
    · simp [WhileNotN, hl]
    · simp [WhileNotN, hl] at h
  · intro p n m s h
    by_cases hl : byteLen (s.takeWhile (fun c => !p.test c)) < n ∨
        byteLen (s.takeWhile (fun c => !p.test c)) > m
    · simp [WhileNotNM, hl]
    · simp [WhileNotNM, hl] at h
  · intro s h
    cases hi : indexOfSub s ['\n'] with
    | none => simp [Crlf, hi]
    | some idx =>
      match idx with
      | 0 => simp [Crlf, hi] at h
      | 1 =>
        by_cases hr : s.head? = some '\r'
        · simp [Crlf, hi, hr] at h
        · simp [Crlf, hi, hr]
      | k + 2 => simp [Crlf, hi]
  · intro α β i1 i2 c1 c2 s r1 o1 e h1
    simp [Pair, h1]
  · intro α β i1 i2 c1 c2 s r1 r2 o1 o2 e h1 h2
    simp [Pair, h1, h2]

/-- Witness for C1 at concrete inputs: a failing `Tag` restores its
input, and a `Pair` whose second sub-parser fails returns the partially
consumed remaining text. -/
theorem c1_failure_remaining_witness :
    (Tag ['q'] ['a', 'x']).1 = ['a', 'x'] ∧
    Pair (Tag ['a']) (Tag ['b']) ['a', 'x'] =
      (['x'], [], some (.pe (.cpe ['b'] ['x'] "tag") "pair")) :=
  ⟨c1_failure_remaining.1 ['q'] ['a', 'x'] (by decide),
   c1_failure_remaining.2.2.2.2.2.2.2.2.2.2.2.2.2.2.2.2.2
     Str Str (Tag ['a']) (Tag ['b']) ['a', 'x'] ['x'] ['x'] ['a'] []
     (.cpe ['b'] ['x'] "tag") (by decide) (by decide)⟩

/-! ## Claim C5: Crlf line-ending contract -/

/-- C5. `Crlf()(s)` succeeds iff `s` starts with a lone `'\n'`
(consuming one rune) or with `'\r\n'` (consuming two runes); in every
other case it fails and returns `s` unchanged. -/
theorem c5_crlf_contract (s : Str) :
    (∀ t, s = '\n' :: t → Crlf s = (t, ['\n'], none)) ∧
    (∀ t, s = '\r' :: '\n' :: t → Crlf s = (t, ['\r', '\n'], none)) ∧
    (s.head? ≠ some '\n' → s.take 2 ≠ ['\r', '\n'] →
      Crlf s = (s, [], some (.cpe [] s "crlf"))) := by
  refine ⟨?_, ?_, ?_⟩
  · rintro t rfl
    simp [Crlf, indexOfSub, List.isPrefixOf]
  · rintro t rfl
    simp [Crlf, indexOfSub, List.isPrefixOf]
  · intro h1 h2
    match s with
    | [] => simp [Crlf, indexOfSub, List.isPrefixOf]
    | a :: rest =>
      have ha : ¬('\n' = a) := by
        intro h; exact h1 (by simp [h.symm])
      match rest with
      | [] =>
        simp [Crlf, indexOfSub, List.isPrefixOf, ha]
      | b :: rest2 =>
        by_cases hb : b = '\n'
        · subst hb
          have ha2 : ¬(a = '\r') := by
            intro h; exact h2 (by simp [h])
          simp [Crlf, indexOfSub, List.isPrefixOf, ha, ha2]
        · have hb' : ¬('\n' = b) := fun h => hb h.symm
          have e1 : indexOfSub (a :: b :: rest2) ['\n'] =
              ((indexOfSub rest2 ['\n']).map (· + 1)).map (· + 1) := by
            rw [indexOfSub_nl_cons a _ ha, indexOfSub_nl_cons b _ hb']
          unfold Crlf
          rw [e1]
          cases hidx : indexOfSub rest2 ['\n'] with
          | none => simp
          | some j => simp

/-! ## Claim C3: prefix invariant -/

/-- C3 counterexample. `Suffixed` (listed in the claim) discards the
suffix, so `s == m ++ r` fails on the spec's own example:
`Suffixed(Tag("Hello"), Tag(", "))("Hello, World!")` succeeds with
matched `"Hello"` and remaining `"World!"`, yet
`"Hello" ++ "World!" != "Hello, World!"`. -/
theorem c3_suffixed_violates_prefix_invariant :
    Suffixed (Tag ['H', 'e', 'l', 'l', 'o']) (Tag [',', ' '])
        ['H', 'e', 'l', 'l', 'o', ',', ' ', 'W', 'o', 'r', 'l', 'd', '!'] =
      (['W', 'o', 'r', 'l', 'd', '!'], ['H', 'e', 'l', 'l', 'o'], none) ∧
    ['H', 'e', 'l', 'l', 'o'] ++ ['W', 'o', 'r', 'l', 'd', '!'] ≠
      ['H', 'e', 'l', 'l', 'o', ',', ' ', 'W', 'o', 'r', 'l', 'd', '!'] := by
  refine ⟨by decide, by decide⟩

/-- C3 amended. The prefix invariant `s == m ++ r` holds for every
successful parse of the non-discarding primitives — `Tag`, `Char`,
`AnyChar`, `Satisfy`, `OneOf`, `NoneOf`, `Any`, `Not`, `Until`,
`TakeUntil1`, `Take` and the `While` family — but not for the
combinators that discard delimiters (`Prefixed`/`Suffixed`/`Delimited`),
whose remaining text omits the discarded parts. -/
theorem c3_prefix_invariant_primitives :
    (∀ str s, (Tag str s).2.2 = none →
      s = (Tag str s).2.1 ++ (Tag str s).1) ∧
    (∀ ch s, (CharP ch s).2.2 = none →
      s = (CharP ch s).2.1 ++ (CharP ch s).1) ∧
    (∀ s, (AnyChar s).2.2 = none →
      s = (AnyChar s).2.1 ++ (AnyChar s).1) ∧
    (∀ p s, (Satisfy p s).2.2 = none →
      s = (Satisfy p s).2.1 ++ (Satisfy p s).1) ∧
    (∀ str s, (OneOf str s).2.2 = none →
      s = (OneOf str s).2.1 ++ (OneOf str s).1) ∧
    (∀ str s, (NoneOf str s).2.2 = none →
      s = (NoneOf str s).2.1 ++ (NoneOf str s).1) ∧
    (∀ str s, (AnyOf str s).2.2 = none →
      s = (AnyOf str s).2.1 ++ (AnyOf str s).1) ∧
    (∀ str s, (NotOf str s).2.2 = none →
      s = (NotOf str s).2.1 ++ (NotOf str s).1) ∧
    (∀ str s, (Until str s).2.2 = none →
      s = (Until str s).2.1 ++ (Until str s).1) ∧
    (∀ str s, (TakeUntil1 str s).2.2 = none →
      s = (TakeUntil1 str s).2.1 ++ (TakeUntil1 str s).1) ∧
    (∀ n s, (TakeN n s).2.2 = none →
      s = (TakeN n s).2.1 ++ (TakeN n s).1) ∧
    (∀ p n s, (WhileN p n s).2.2 = none →
      s = (WhileN p n s).2.1 ++ (WhileN p n s).1) ∧
    (∀ p n m s, (WhileNM p n m s).2.2 = none →
      s = (WhileNM p n m s).2.1 ++ (WhileNM p n m s).1) ∧
    (∀ p n s, (WhileNotN p n s).2.2 = none →
      s = (WhileNotN p n s).2.1 ++ (WhileNotN p n s).1) ∧
    (∀ p n m s, (WhileNotNM p n m s).2.2 = none →
      s = (WhileNotNM p n m s).2.1 ++ (WhileNotNM p n m s).1) := by
  refine ⟨?_, ?_, ?_, ?_, ?_, ?_, ?_, ?_, ?_, ?_, ?_, ?_, ?_, ?_, ?_⟩
  · intro str s h
    by_cases hp : str.isPrefixOf s
    · obtain ⟨t, rfl⟩ := List.isPrefixOf_iff_prefix.mp hp
      simp [Tag, hp, List.drop_left]
    · simp [Tag, hp] at h
  · intro ch s h
    match s with
    | [] => simp [CharP] at h
    | r :: rest =>
      by_cases hr : r = ch
      · simp [CharP, hr]
      · simp [CharP, hr] at h
  · intro s h
    match s with
    | [] => simp [AnyChar] at h
    | r :: rest => simp [AnyChar]
  · intro p s h
    match s with
    | [] => simp [Satisfy] at h
    | r :: rest =>
      by_cases hr : p r
      · simp [Satisfy, hr]
      · simp [Satisfy, hr] at h
  · intro str s h
    match s with
    | [] => simp [OneOf] at h
    | r :: rest =>
      by_cases hr : r ∈ str
      · simp [OneOf, hr]
      · simp [OneOf, hr] at h
  · intro str s h
    match s with
    | [] => simp [NoneOf] at h
    | r :: rest =>
      by_cases hr : r ∈ str
      · simp [NoneOf, hr] at h
      · simp [NoneOf, hr]
  · intro str s h
    cases hm : s.takeWhile (fun c => decide (c ∈ str)) with
    | nil => simp only [AnyOf, hm] at h; simp at h
    | cons a l =>
      simp only [AnyOf, hm]
      rw [← hm, List.takeWhile_append_dropWhile]
  · intro str s h
    cases hm : s.takeWhile (fun c => decide (c ∉ str)) with
    | nil => simp only [NotOf, hm] at h; simp at h
    | cons a l =>
      simp only [NotOf, hm]
      rw [← hm, List.takeWhile_append_dropWhile]
  · intro str s h
    cases hi : indexOfSub s str with
    | none => simp [Until, hi] at h
    | some idx => simp [Until, hi, List.take_append_drop]
  · intro str s h
    cases hi : indexOfSub s str with
    | none => simp [TakeUntil1, hi] at h
    | some idx =>
      by_cases hz : 0 < idx
      · simp [TakeUntil1, hi, hz, List.take_append_drop]
      · simp [TakeUntil1, hi, hz] at h
  · intro n s h
    by_cases hl : s.length < n
    · simp [TakeN, hl] at h
    · simp [TakeN, hl, List.take_append_drop]
  · intro p n s h
    by_cases hl : byteLen (s.takeWhile p.test) < n
    · simp [WhileN, hl] at h
    · simp [WhileN, hl, List.takeWhile_append_dropWhile]
  · intro p n m s h
    by_cases hl : byteLen (s.takeWhile p.test) < n ∨ byteLen (s.takeWhile p.test) > m
    · simp [WhileNM, hl] at h
    · simp [WhileNM, hl, List.takeWhile_append_dropWhile]
  · intro p n s h
    by_cases hl : byteLen (s.takeWhile (fun c => !p.test c)) < n
    · simp [WhileNotN, hl] at h
    · simp [WhileNotN, hl, List.takeWhile_append_dropWhile]
  · intro p n m s h
    by_cases hl : byteLen (s.takeWhile (fun c => !p.test c)) < n ∨
        byteLen (s.takeWhile (fun c => !p.test c)) > m
    · simp [WhileNotNM, hl] at h
    · simp [WhileNotNM, hl, List.takeWhile_append_dropWhile]

/-- Witness for C3: the amended invariant applied at concrete inputs,
one per primitive family. -/
theorem c3_prefix_invariant_primitives_witness :
    (['a', 'b'] : Str) = (Tag ['a'] ['a', 'b']).2.1 ++ (Tag ['a'] ['a', 'b']).1 ∧
    (['a', 'b'] : Str) = (Until ['b'] ['a', 'b']).2.1 ++ (Until ['b'] ['a', 'b']).1 ∧
    (['a', 'b'] : Str) =
      (WhileN ⟨fun c => c = 'a', "is_a"⟩ 1 ['a', 'b']).2.1 ++
        (WhileN ⟨fun c => c = 'a', "is_a"⟩ 1 ['a', 'b']).1 :=
  ⟨c3_prefix_invariant_primitives.1 ['a'] ['a', 'b'] (by decide),
   (c3_prefix_invariant_primitives.2.2.2.2.2.2.2.2.1) ['b'] ['a', 'b'] (by decide),
   (c3_prefix_invariant_primitives.2.2.2.2.2.2.2.2.2.2.2.1)
     ⟨fun c => c = 'a', "is_a"⟩ 1 ['a', 'b'] (by decide)⟩

/-- Witness for C5 at concrete inputs. -/
theorem c5_crlf_contract_witness :
    Crlf ['\n', 'a'] = (['a'], ['\n'], none) ∧
    Crlf ['\r', '\n', 'b'] = (['b'], ['\r', '\n'], none) ∧
    Crlf ['\r'] = (['\r'], [], some (.cpe [] ['\r'] "crlf")) :=
  ⟨(c5_crlf_contract ['\n', 'a']).1 ['a'] rfl,
   (c5_crlf_contract ['\r', '\n', 'b']).2.1 ['b'] rfl,
   (c5_crlf_contract ['\r']).2.2 (by decide) (by decide)⟩

/-! ## Claim C6: Opt totality and restoration -/

/-- C6 counterexample. `Opt` swallows the error but returns whatever
remaining text the failing combinator reported: with
`c = Pair(Tag("a"), Tag("b"))` (which consumes `"a"` before failing),
`Opt(c)("ax")` returns remaining `"x"`, not the original `"ax"`. -/
theorem c6_opt_does_not_restore_input :
    (Pair (Tag ['a']) (Tag ['b']) ['a', 'x']).2.2.isSome = true ∧
    Opt (Pair (Tag ['a']) (Tag ['b'])) ['a', 'x'] = (['x'], [], none) ∧
    (['x'] : Str) ≠ ['a', 'x'] := by
  refine ⟨by decide, by decide, by decide⟩

/-- C6 amended. `Opt(c)` never returns an error, for any `c` and any
input; on failure of `c` it passes through `c`'s returned remaining
text and matched value (so the original input is restored exactly when
`c` itself restores it on failure). -/
theorem c6_opt_total_and_passthrough :
    (∀ (α : Type) (c : Comb α) (s : Str), (Opt c s).2.2 = none) ∧
    (∀ (α : Type) (c : Comb α) (s r : Str) (o : α) (e : GoError),
      c s = (r, o, some e) → Opt c s = (r, o, none)) := by
  constructor
  · intro α c s
    simp [Opt]
  · intro α c s r o e h
    simp [Opt, h]

/-- Witness for C6: `Opt` over a failing `Tag` at a concrete input. -/
theorem c6_opt_total_and_passthrough_witness :
    (Opt (Tag ['q']) ['a']).2.2 = none ∧
    Opt (Tag ['q']) ['a'] = (['a'], [], none) :=
  ⟨c6_opt_total_and_passthrough.1 Str (Tag ['q']) ['a'],
   c6_opt_total_and_passthrough.2 Str (Tag ['q']) ['a'] ['a'] []
     (.cpe ['q'] ['a'] "tag") (by decide)⟩

/-! ## Claim C7: Recognize round-trip -/

/-- C7. If `c` succeeds on `text` leaving `rem` (with `rem` a suffix
of `text`, as every combinator of the library guarantees on success),
then `Recognize(c)(text)` matches exactly the consumed prefix `pre`,
and re-feeding it as `Tag(pre)(text)` succeeds with the same matched
value `pre` and the same remaining text `rem`. -/
theorem c7_recognize_round_trip (α : Type) (c : Comb α)
    (text pre rem : Str) (out : α)
    (hc : c text = (rem, out, none)) (hsplit : text = pre ++ rem) :
    Recognize c text = (rem, pre, none) ∧ Tag pre text = (rem, pre, none) := by
  subst hsplit
  constructor
  · simp [Recognize, hc, List.length_append, Nat.add_sub_cancel,
      List.take_left]
  · have hp : pre.isPrefixOf (pre ++ rem) :=
      List.isPrefixOf_iff_prefix.mpr ⟨rem, rfl⟩
    simp [Tag, hp, List.drop_left]

/-- Witness for C7: `c = Tag("ab")` on `"abc"`. -/
theorem c7_recognize_round_trip_witness :
    Recognize (Tag ['a', 'b']) ['a', 'b', 'c'] = (['c'], ['a', 'b'], none) ∧
    Tag ['a', 'b'] ['a', 'b', 'c'] = (['c'], ['a', 'b'], none) :=
  c7_recognize_round_trip Str (Tag ['a', 'b']) ['a', 'b', 'c']
    ['a', 'b'] ['c'] ['a', 'b'] (by decide) (by decide)

/-! ## Claim C2: Cut/First fatal control flow -/

/-- C2. (i) If the alternatives before `ci` all fail non-fatally and
`ci` fails with an error whose `Unwrap` chain contains a `CutError`,
then `First` stops there: it returns the original input `s`, the zero
value, and that error — independently of the alternatives after `ci`,
which are never consulted. (ii) If every alternative fails non-fatally,
`First` returns `s` with the generic `"first"` error. (iii) `Cut(c)`,
when `c` fails, returns the original input `s` with `c`'s error wrapped
as a fatal `CutError`. -/
theorem c2_first_cut_fatal :
    (∀ (α : Type) [GoRes α] (pre post : List (Comb α)) (ci : Comb α)
      (s r : Str) (v : α) (e : GoError),
      (∀ c ∈ pre, ∃ r' v' e', c s = (r', v', some e') ∧ isCut e' = false) →
      ci s = (r, v, some e) → isCut e = true →
      First (pre ++ ci :: post) s = (s, GoRes.dflt, some e)) ∧
    (∀ (α : Type) [GoRes α] (cs : List (Comb α)) (s : Str),
      (∀ c ∈ cs, ∃ r' v' e', c s = (r', v', some e') ∧ isCut e' = false) →
      First cs s = (s, GoRes.dflt, some (.cpe [] s "first"))) ∧
    (∀ (α : Type) [GoRes α] (c : Comb α) (s r : Str) (v : α) (e : GoError),
      c s = (r, v, some e) → Cut c s = (s, GoRes.dflt, some (.cutE e))) := by
  refine ⟨?_, ?_, ?_⟩
  · intro α inst pre post ci s r v e hpre hci hcut
    induction pre with
    | nil => simp [First, firstAux, hci, hcut]
    | cons c pre ih =>
      obtain ⟨r', v', e', hc, hnc⟩ := hpre c (by simp)
      have ih2 := ih fun c' hc' => hpre c' (by simp [hc'])
      simp only [First] at ih2 ⊢
      simp only [List.cons_append, firstAux, hc, hnc]
      simpa using ih2
  · intro α inst cs s hcs
    induction cs with
    | nil => simp [First, firstAux]
    | cons c cs ih =>
      obtain ⟨r', v', e', hc, hnc⟩ := hcs c (by simp)
      have ih2 := ih fun c' hc' => hcs c' (by simp [hc'])
      simp only [First] at ih2 ⊢
      simp only [firstAux, hc, hnc]
      simpa using ih2
  · intro α inst c s r v e h
    simp [Cut, h]

/-- Witness for C2: a fatal `Cut` inside the second alternative stops
`First` even though the third alternative would succeed; a list of
non-fatal failures yields the generic error; `Cut` restores the input. -/
theorem c2_first_cut_fatal_witness :
    First [Tag ['p'], Cut (Tag ['q']), Tag ['z']] ['z'] =
      (['z'], ([] : Str), some (.cutE (.cpe ['q'] ['z'] "tag"))) ∧
    First [Tag ['p'], Tag ['q']] ['z'] =
      (['z'], ([] : Str), some (.cpe [] ['z'] "first")) ∧
    Cut (Tag ['q']) ['z'] =
      (['z'], ([] : Str), some (.cutE (.cpe ['q'] ['z'] "tag"))) := by
  refine ⟨?_, ?_, ?_⟩
  · exact c2_first_cut_fatal.1 Str [Tag ['p']] [Tag ['z']]
      (Cut (Tag ['q'])) ['z'] ['z'] [] (.cutE (.cpe ['q'] ['z'] "tag"))
      (by intro c hc
          simp only [List.mem_singleton] at hc
          subst hc
          exact ⟨['z'], [], .cpe ['p'] ['z'] "tag", by decide, by decide⟩)
      (by decide) (by decide)
  · exact c2_first_cut_fatal.2.1 Str [Tag ['p'], Tag ['q']] ['z']
      (by intro c hc
          simp only [List.mem_cons, List.not_mem_nil, or_false] at hc
          rcases hc with rfl | rfl
          · exact ⟨['z'], [], .cpe ['p'] ['z'] "tag", by decide, by decide⟩
          · exact ⟨['z'], [], .cpe ['q'] ['z'] "tag", by decide, by decide⟩)
  · exact c2_first_cut_fatal.2.2 Str (Tag ['q']) ['z'] ['z'] []
      (.cpe ['q'] ['z'] "tag") (by decide)

/-! ## Claim C4: min/max bounds of WhileNM and RepeatRange -/

/-- C4 counterexample. `WhileNM` counts BYTES, not characters: with a
predicate matching `'é'` (a two-byte rune), `WhileNM(p, 2, 4)` succeeds
on the one-character input `"é"` because its byte count 2 lies in
`[2, 4]`, yet the matched text has only 1 character, outside `[2, 4]`. -/
theorem c4_whileNM_counts_bytes_not_chars :
    WhileNM ⟨fun c => c = 'é', "is_eacute"⟩ 2 4 ['é'] = ([], ['é'], none) ∧
    ([ 'é' ] : Str).length = 1 ∧ ¬(2 ≤ 1) := by
  refine ⟨by decide, by decide, by decide⟩

/-- Invariant of the `RepeatRange` loop: `i` completed iterations,
`left` iterations still possible (`i + left = m`).  On success the total
number of completed iterations is `i + repCount c left rem` and lies in
`[n, m]`; on failure the error is a `RangedParserError` whose count is
exactly that number, which is below `n`. -/
theorem repeatRangeAux_bounds [GoRes α] (c : Comb α) (n m : Nat)
    (hnm : n ≤ m) :
    ∀ left i (rem : Str) (ext : List Str), i + left = m →
      ((repeatRangeAux c n m left i rem ext).2.2 = none →
        n ≤ i + repCount c left rem ∧ i + repCount c left rem ≤ m) ∧
      (∀ e, (repeatRangeAux c n m left i rem ext).2.2 = some e →
        (∃ e0, e = .rpe e0 ⟨n, m, i + repCount c left rem⟩ "repeat_range") ∧
        i + repCount c left rem < n) := by
  intro left
  induction left with
  | zero =>
    intro i rem ext hi
    refine ⟨fun _ => ?_, fun e he => ?_⟩
    · simp [repCount]; omega
    · simp [repeatRangeAux] at he
  | succ left ih =>
    intro i rem ext hi
    rcases hcr : c rem with ⟨r', o, oe⟩
    cases oe with
    | none =>
      have hrep : repCount c (left + 1) rem = repCount c left r' + 1 := by
        simp [repCount, hcr]
      have hK : i + repCount c (left + 1) rem =
          (i + 1) + repCount c left r' := by omega
      have ih2 := ih (i + 1) r' (ext ++ GoRes.flat o) (by omega)
      simp only [repeatRangeAux, hcr, hK]
      exact ih2
    | some e' =>
      have hrep : repCount c (left + 1) rem = 0 := by
        simp [repCount, hcr]
      by_cases hn : i + 1 > n
      · refine ⟨fun _ => ?_, fun e he => ?_⟩
        · rw [hrep]; omega
        · simp only [repeatRangeAux, hcr] at he
          rw [if_pos hn] at he
          simp at he
      · refine ⟨fun hnone => ?_, fun e he => ?_⟩
        · simp only [repeatRangeAux, hcr] at hnone
          rw [if_neg hn] at hnone
          simp at hnone
        · simp only [repeatRangeAux, hcr] at he
          rw [if_neg hn] at he
          simp only [Option.some_inj] at he
          refine ⟨⟨e', ?_⟩, by omega⟩
          rw [← he, hrep]
          simp
/-- C4 amended.  For `WhileNM(p, n, m)` the bounds concern the BYTE
length of the matched run (for ASCII input this equals the character
count, but not in general): on success the byte length lies in
`[n, m]`, and on failure the `RangedParserError` reports exactly the
observed byte count together with `n` and `m`.  For
`RepeatRange(c, n, m)` with `n ≤ m` the claim holds as stated: on
success the number of completed repetitions (`repCount c m s`) lies in
`[n, m]`, and on failure the error reports exactly the observed
repetition count, which is below `n`. -/
theorem c4_min_max_bounds :
    (∀ p n m (s : Str), (WhileNM p n m s).2.2 = none →
      n ≤ byteLen (WhileNM p n m s).2.1 ∧
      byteLen (WhileNM p n m s).2.1 ≤ m) ∧
    (∀ p n m (s : Str), (WhileNM p n m s).2.2 ≠ none →
      (WhileNM p n m s).2.2 =
        some (.rpe (.cpe [] s p.name)
          ⟨n, m, byteLen (s.takeWhile p.test)⟩ "while_n_m") ∧
      (byteLen (s.takeWhile p.test) < n ∨
        byteLen (s.takeWhile p.test) > m)) ∧
    (∀ (α : Type) [GoRes α] (c : Comb α) n m (s : Str), n ≤ m →
      (RepeatRange c n m s).2.2 = none →
      n ≤ repCount c m s ∧ repCount c m s ≤ m) ∧
    (∀ (α : Type) [GoRes α] (c : Comb α) n m (s : Str) e, n ≤ m →
      (RepeatRange c n m s).2.2 = some e →
      (∃ e0, e = .rpe e0 ⟨n, m, repCount c m s⟩ "repeat_range") ∧
      repCount c m s < n) := by
  refine ⟨?_, ?_, ?_, ?_⟩
  · intro p n m s h
    by_cases hl : byteLen (s.takeWhile p.test) < n ∨
        byteLen (s.takeWhile p.test) > m
    · simp [WhileNM, hl] at h
    · simp only [WhileNM, if_neg hl]
      push_neg at hl
      exact hl
  · intro p n m s h
    by_cases hl : byteLen (s.takeWhile p.test) < n ∨
        byteLen (s.takeWhile p.test) > m
    · simp only [WhileNM, if_pos hl]
      exact ⟨trivial, hl⟩
    · simp [WhileNM, if_neg hl] at h
  · intro α inst c n m s hnm h
    have hswap : ¬(n > m) := by omega
    simp only [RepeatRange, if_neg hswap] at h
    have := ((repeatRangeAux_bounds c n m hnm m 0 s [] (by omega)).1) h
    simpa using this
  · intro α inst c n m s e hnm h
    have hswap : ¬(n > m) := by omega
    simp only [RepeatRange, if_neg hswap] at h
    have := ((repeatRangeAux_bounds c n m hnm m 0 s [] (by omega)).2) e h
    simpa using this

/-- Witness for C4: `WhileNM` over a run of two ASCII `'1'`s with
bounds `[1, 8]`, and `RepeatRange(Tag("a"), 1, 3)` completing two
repetitions on `"aab"`. -/
theorem c4_min_max_bounds_witness :
    (1 ≤ byteLen (WhileNM ⟨fun c => c = '1', "is_one"⟩ 1 8
        ['1', '1', 'x']).2.1 ∧
      byteLen (WhileNM ⟨fun c => c = '1', "is_one"⟩ 1 8
        ['1', '1', 'x']).2.1 ≤ 8) ∧
    (1 ≤ repCount (Tag ['a']) 3 ['a', 'a', 'b'] ∧
      repCount (Tag ['a']) 3 ['a', 'a', 'b'] ≤ 3) :=
  ⟨c4_min_max_bounds.1 ⟨fun c => c = '1', "is_one"⟩ 1 8 ['1', '1', 'x']
     (by decide),
   c4_min_max_bounds.2.2.1 Str (Tag ['a']) 1 3 ['a', 'a', 'b']
     (by decide) (by decide)⟩

/-! ## Claim C8: termination of the repetition loops -/

/-- With the zero-width-succeeding combinator `Opt(Tag("x"))` the
`ManyN` loop never reaches its exit condition: the loop body never sees
an error, for any amount of fuel. -/
theorem manyNLoop_opt_tag_diverges :
    ∀ fuel (rem : Str) (ext : List Str) (count : Nat),
      manyNLoop (Opt (Tag ['x'])) fuel rem ext count = none := by
  intro fuel
  induction fuel with
  | zero => intro rem ext count; rfl
  | succ f ih =>
    intro rem ext count
    simp only [manyNLoop, Opt]
    exact ih _ _ _

/-- C8 counterexample. `ManyN(Opt(Tag("x")), 1)` on input `"y"` does
not terminate: `Opt` succeeds while consuming zero characters on every
iteration, so the until-first-failure loop never exits (the source has
no zero-width guard). -/
theorem c8_manyN_zero_width_diverges :
    ¬ ManyNTerminates (Opt (Tag ['x'])) 1 ['y'] := by
  rintro ⟨fuel, r, hr⟩
  simp [ManyN, manyNLoop_opt_tag_diverges] at hr

/-- The `ManyN` loop exits within `len(input) + 1` iterations whenever
every success of `c` strictly consumes input. -/
theorem manyNLoop_total [GoRes α] (c : Comb α)
    (hprog : ∀ (s' r : Str) (o : α), c s' = (r, o, none) →
      r.length < s'.length) :
    ∀ (N : Nat) (s : Str), s.length ≤ N → ∀ ext count,
      (manyNLoop c (N + 1) s ext count).isSome = true := by
  intro N
  induction N with
  | zero =>
    intro s hs ext count
    rcases hcr : c s with ⟨r', o, oe⟩
    cases oe with
    | none =>
      have := hprog s r' o hcr
      omega
    | some e => simp [manyNLoop, hcr]
  | succ N ih =>
    intro s hs ext count
    rcases hcr : c s with ⟨r', o, oe⟩
    cases oe with
    | none =>
      have hlt := hprog s r' o hcr
      simp only [manyNLoop, hcr]
      exact ih r' (by omega) _ _
    | some e => simp [manyNLoop, hcr]

/-- C8 amended.  `ManyN(c, n)(s)` terminates and returns a result for
every `c` whose successes strictly consume input (every success leaves
a shorter remaining text); when `c` can succeed while consuming zero
characters the loop diverges, as the counterexample shows. -/
theorem c8_manyN_terminates_with_progress (α : Type) [GoRes α]
    (c : Comb α) (n : Nat) (s : Str)
    (hprog : ∀ (s' r : Str) (o : α), c s' = (r, o, none) →
      r.length < s'.length) :
    ManyNTerminates c n s := by
  have h := manyNLoop_total c hprog s.length s le_rfl [] 0
  obtain ⟨x, hx⟩ := Option.isSome_iff_exists.mp h
  refine ⟨s.length + 1, ?_, ?_⟩
  · exact (ManyN c n s (s.length + 1)).get (by simp [ManyN, hx])
  · simp [ManyN, hx]

/-- Go `Char('x')` strictly consumes on every success. -/
theorem charP_progress :
    ∀ (s' r : Str) (o : Str), CharP 'x' s' = (r, o, none) →
      r.length < s'.length := by
  intro s' r o h
  match s' with
  | [] => simp [CharP] at h
  | a :: rest =>
    by_cases ha : a = 'x'
    · simp only [CharP, if_pos ha] at h
      injection h with h1 h2
      subst h1
      simp
    · simp [CharP, ha] at h

/-- Witness for C8: `ManyN(Char('x'), 0)` terminates on `"xy"`. -/
theorem c8_manyN_terminates_witness :
    ManyNTerminates (CharP 'x') 0 ['x', 'y'] :=
  c8_manyN_terminates_with_progress Str (CharP 'x') 0 ['x', 'y']
    charP_progress

/-! ## Claim C9: error-message truncation (combinator.go Error()) -/

/-- Byte strings, for the byte-exact model of
`CombinatorParseError.Error()` (Go `len` and slicing act on bytes). -/
abbrev Bytes := List Nat

/-- The UTF-8 bytes of an ASCII string constant. -/
def strBytes (s : String) : Bytes := s.toList.map Char.toNat

/-- Go `truncateErrAt = 50`. -/
def truncateErrAt : Nat := 50

/-- The single ASCII apostrophe byte the message wraps around the
embedded text and input. -/
def quoteByte : Bytes := [39]

/-- Go `CombinatorParseError.Error()`: truncate the text preview at 50
bytes (appending a literal marker), render the frame, and append the
input clause when `Input` is non-empty. -/
def renderCPE (input text ty : Bytes) : Bytes :=
  let t :=
    if text.length > truncateErrAt then
      text.take truncateErrAt ++ strBytes "...(truncated)"
    else text
  let buf := strBytes "(" ++ ty ++
    strBytes ") combinator failed to parse text " ++ quoteByte ++ t ++
    quoteByte
  if input = [] then buf
  else buf ++ strBytes " with input " ++ quoteByte ++ input ++ quoteByte

/-- C9. The rendered message embeds the offending text in full when it
is at most 50 bytes long, and otherwise embeds exactly its first 50
bytes followed by the literal `...(truncated)` marker; the `Text` value
carried by the error itself is used untruncated in either case. -/
theorem c9_error_message_truncation (input text ty : Bytes) :
    (text.length ≤ truncateErrAt →
      renderCPE input text ty =
        strBytes "(" ++ ty ++
          strBytes ") combinator failed to parse text " ++ quoteByte ++
          text ++ quoteByte ++
          (if input = [] then []
            else strBytes " with input " ++ quoteByte ++ input ++
              quoteByte)) ∧
    (text.length > truncateErrAt →
      renderCPE input text ty =
        strBytes "(" ++ ty ++
          strBytes ") combinator failed to parse text " ++ quoteByte ++
          (text.take truncateErrAt ++ strBytes "...(truncated)") ++
          quoteByte ++
          (if input = [] then []
            else strBytes " with input " ++ quoteByte ++ input ++
              quoteByte)) := by
  constructor
  · intro h
    have hno : ¬(text.length > truncateErrAt) := by omega
    by_cases hin : input = [] <;>
      simp [renderCPE, hno, hin, List.append_assoc]
  · intro h
    by_cases hin : input = [] <;>
      simp [renderCPE, h, hin, List.append_assoc]

/-- Witness for C9: a two-byte text is embedded whole; a 51-byte text
is cut at 50 bytes and marked. -/
theorem c9_error_message_truncation_witness :
    renderCPE [] [104, 105] [116] =
      strBytes "(" ++ [116] ++
        strBytes ") combinator failed to parse text " ++ quoteByte ++
        [104, 105] ++ quoteByte ++
        (if ([] : Bytes) = [] then []
          else strBytes " with input " ++ quoteByte ++ [] ++
            quoteByte) ∧
    renderCPE [] (List.replicate 51 97) [116] =
      strBytes "(" ++ [116] ++
        strBytes ") combinator failed to parse text " ++ quoteByte ++
        ((List.replicate 51 97).take truncateErrAt ++
          strBytes "...(truncated)") ++ quoteByte ++
        (if ([] : Bytes) = [] then []
          else strBytes " with input " ++ quoteByte ++ [] ++
            quoteByte) :=
  ⟨(c9_error_message_truncation [] [104, 105] [116]).1 (by decide),
   (c9_error_message_truncation [] (List.replicate 51 97) [116]).2
     (by decide)⟩

end Chomp
